import Mathlib

/-!
Verification development for the OpenMP Mandelbrot + 2D-convolution program
(src/a2-task.cpp).  The C++ code is shallowly embedded: the image container
(declared in a2-helpers.hpp, outside src/) is modelled from its spec contract
as an indexed integer store; `double` arithmetic is modelled over ℚ (the
escape-loop decisions are pure comparisons of squared magnitudes, exact over
ℚ); the floating-point colorizer (`colorize`, also in a2-helpers.hpp) only
affects pixel colors, which no claim inspects, and is abstracted as a
parameter producing the filled pixel buffer.
-/

set_option maxRecDepth 4096

namespace A2

/-- Image: modelled from the spec's container contract (construct / get / set /
dimension accessors); the raw storage container is an out-of-scope collaborator
declared in a2-helpers.hpp.  Samples are integers addressed by
(channel, row, col). -/
structure Image where
  channels : ℕ
  height : ℕ
  width : ℕ
  data : ℕ → ℕ → ℕ → ℤ

/-- Reading a sample: image(ch, row, col). -/
def Image.get (img : Image) (ch r c : ℕ) : ℤ := img.data ch r c

/-- Writing a sample: image(ch, row, col) = v. -/
def Image.set (img : Image) (ch r c : ℕ) (v : ℤ) : Image :=
  { img with
    data := fun ch0 r0 c0 =>
      if ch0 = ch ∧ r0 = r ∧ c0 = c then v else img.data ch0 r0 c0 }

@[simp] theorem Image.get_set (img : Image) (ch r c : ℕ) (v : ℤ) (ch0 r0 c0 : ℕ) :
    (img.set ch r c v).get ch0 r0 c0 =
      if ch0 = ch ∧ r0 = r ∧ c0 = c then v else img.get ch0 r0 c0 := rfl

@[simp] theorem Image.set_channels (img : Image) (ch r c : ℕ) (v : ℤ) :
    (img.set ch r c v).channels = img.channels := rfl

@[simp] theorem Image.set_height (img : Image) (ch r c : ℕ) (v : ℤ) :
    (img.set ch r c v).height = img.height := rfl

@[simp] theorem Image.set_width (img : Image) (ch r c : ℕ) (v : ℤ) :
    (img.set ch r c v).width = img.width := rfl

/-! ## The escape kernel (mandelbrot_kernel, src/a2-task.cpp lines 24-46)

Complex numbers are pairs of rationals.  The loop
`while (abs(z) <= 4 && iteration < max_iterations) { z = z*z + c; iteration++ }`
is embedded with explicit fuel `max_iterations - iteration`; the comparison
`abs(z) <= 4` is expressed exactly as `normSq z ≤ 16`. -/

/-- One loop body step: z ← z² + c on (re, im) pairs. -/
def mstep (cr ci zr zi : ℚ) : ℚ × ℚ := (zr * zr - zi * zi + cr, 2 * zr * zi + ci)

/-- Squared magnitude |z|²; the code's `abs(z) <= 4` is `normSq z ≤ 16`. -/
def normSq (z : ℚ × ℚ) : ℚ := z.1 * z.1 + z.2 * z.2

/-- The n-th iterate of z ← z² + c starting from z = 0. -/
def miter (cr ci : ℚ) : ℕ → ℚ × ℚ
  | 0 => (0, 0)
  | n + 1 => mstep cr ci (miter cr ci n).1 (miter cr ci n).2

/-- The while-loop of mandelbrot_kernel: fuel = max_iterations - iteration. -/
def mloop (cr ci : ℚ) : ℕ → ℚ × ℚ → ℕ → (ℚ × ℚ) × ℕ
  | 0, z, it => (z, it)
  | fuel + 1, z, it =>
      if normSq z ≤ 16 then mloop cr ci fuel (mstep cr ci z.1 z.2) (it + 1)
      else (z, it)

/-- The iteration budget (line 26). -/
def max_iterations : ℕ := 2048

/-- mandelbrot_kernel's loop: final z and final iteration count.  The smooth
coloring computed after the loop (lines 36-43) is floating point and only
feeds the colorizer; no claim depends on it. -/
def mandelbrot_kernel (cr ci : ℚ) : (ℚ × ℚ) × ℕ :=
  mloop cr ci max_iterations (0, 0) 0

/-- The iteration count the kernel ends with. -/
def kernel_iters (cr ci : ℚ) : ℕ := (mandelbrot_kernel cr ci).2

/-- The boolean the kernel returns: `return (iteration < max_iterations)`
(line 45). -/
def kernel_flag (cr ci : ℚ) : Bool := decide (kernel_iters cr ci < max_iterations)

theorem miter_succ (cr ci : ℚ) (n : ℕ) :
    miter cr ci (n + 1) = mstep cr ci (miter cr ci n).1 (miter cr ci n).2 := rfl

/-- Loop invariant for mloop started at the m-th iterate with iteration
counter m: the final z is the final-count iterate, the count moves by at most
the fuel, every iterate passed while looping had |z|² ≤ 16, and stopping with
fuel left means the final iterate escaped. -/
theorem mloop_inv (cr ci : ℚ) :
    ∀ (fuel m : ℕ),
      (mloop cr ci fuel (miter cr ci m) m).1 =
          miter cr ci (mloop cr ci fuel (miter cr ci m) m).2 ∧
      m ≤ (mloop cr ci fuel (miter cr ci m) m).2 ∧
      (mloop cr ci fuel (miter cr ci m) m).2 ≤ m + fuel ∧
      (∀ k, m ≤ k → k < (mloop cr ci fuel (miter cr ci m) m).2 →
          normSq (miter cr ci k) ≤ 16) ∧
      ((mloop cr ci fuel (miter cr ci m) m).2 < m + fuel →
          ¬ normSq (miter cr ci (mloop cr ci fuel (miter cr ci m) m).2) ≤ 16) := by
  intro fuel
  induction fuel with
  | zero =>
      intro m
      exact ⟨rfl, le_refl m, by simp [mloop],
        fun k hk1 hk2 => by simp only [mloop] at hk2; omega,
        fun h => absurd h (by simp [mloop])⟩
  | succ fuel ih =>
      intro m
      by_cases h : normSq (miter cr ci m) ≤ 16
      · have hstep : mloop cr ci (fuel + 1) (miter cr ci m) m =
            mloop cr ci fuel (miter cr ci (m + 1)) (m + 1) := by
          simp only [mloop, if_pos h]
          rfl
        obtain ⟨h1, h2, h3, h4, h5⟩ := ih (m + 1)
        rw [hstep]
        refine ⟨h1, by omega, by omega, ?_, fun hlt => h5 (by omega)⟩
        intro k hk1 hk2
        rcases Nat.eq_or_lt_of_le hk1 with hk | hk
        · exact hk ▸ h
        · exact h4 k (by omega) hk2
      · have hstop : mloop cr ci (fuel + 1) (miter cr ci m) m = (miter cr ci m, m) := by
          simp only [mloop, if_neg h]
        rw [hstop]
        exact ⟨rfl, le_refl m, by omega, fun k hk1 hk2 => by omega, fun _ => h⟩

/-- The kernel's loop invariant instantiated at the start state. -/
theorem kernel_inv (cr ci : ℚ) :
    (mandelbrot_kernel cr ci).1 = miter cr ci (kernel_iters cr ci) ∧
    kernel_iters cr ci ≤ max_iterations ∧
    (∀ k, k < kernel_iters cr ci → normSq (miter cr ci k) ≤ 16) ∧
    (kernel_iters cr ci < max_iterations →
        ¬ normSq (miter cr ci (kernel_iters cr ci)) ≤ 16) := by
  have h := mloop_inv cr ci max_iterations 0
  have hz : miter cr ci 0 = (0, 0) := rfl
  rw [hz] at h
  obtain ⟨h1, _, h3, h4, h5⟩ := h
  exact ⟨h1, by simpa using h3, fun k hk => h4 k (Nat.zero_le k) hk, by simpa using h5⟩

/-! ## Domain tiling (lines 70-72 and 117-122)

Both stages compute `w_size = w / task_size` and iterate the half-open range
`[task_num * w_size, (task_num+1) * w_size)` of columns. -/

/-- The columns visited by task t of T over total extent w:
`for (x = t * (w/T); x < (t+1) * (w/T); x++)`. -/
def task_cols (w T t : ℕ) : List ℕ :=
  (List.range (w / T)).map (fun jj => t * (w / T) + jj)

theorem mem_task_cols (w T t j : ℕ) :
    j ∈ task_cols w T t ↔ t * (w / T) ≤ j ∧ j < (t + 1) * (w / T) := by
  simp only [task_cols, List.mem_map, List.mem_range, Nat.succ_mul]
  constructor
  · rintro ⟨jj, hjj, rfl⟩
    omega
  · rintro ⟨h1, h2⟩
    exact ⟨j - t * (w / T), by omega, by omega⟩

/-! ## The fractal stage (mandelbrot, lines 57-91, and its dispatch in main,
lines 202-214)

The per-pixel complex point (lines 76-79); `ratio` was already divided by 10
at function entry (line 63), which is inlined here. -/

/-- The affine pixel-to-plane map: dx = i/w * (ratio/10) - 1.10,
dy = j/h * 0.1 - 0.35. -/
def cOf (w h : ℕ) (ratio : ℚ) (i j : ℕ) : ℚ × ℚ :=
  ((i : ℚ) / (w : ℚ) * (ratio / 10) - 11 / 10,
   (j : ℚ) / (h : ℚ) * (1 / 10) - 35 / 100)

/-- The fixed RGB pixel buffer `vector<int> pixel = {0, 0, 0}` (line 67). -/
def initial_pixel : List ℤ := [0, 0, 0]

/-- The body of the inner pixel loop (lines 76-86): run the kernel, bump the
inside counter when it returns true, then store pixel[ch] for every channel.
`pixelOf` abstracts the contents colorize (a2-helpers.hpp, floating point)
left in the pixel buffer for the point c. -/
def mandelbrot_body (w h channels : ℕ) (ratio : ℚ) (pixelOf : ℚ → ℚ → List ℤ)
    (st : Image × ℕ) (i j : ℕ) : Image × ℕ :=
  let c := cOf w h ratio i j
  let cnt := if kernel_flag c.1 c.2 then st.2 + 1 else st.2
  let px := pixelOf c.1 c.2
  ((List.range channels).foldl (fun im ch => im.set ch j i (px.getD ch 0)) st.1, cnt)

/-- One task of the fractal stage (the function mandelbrot, lines 57-91):
iterate the task's column slice, every row, returning the written image and
the local inside count (pixels_inside, initialised to 0 at line 64). -/
def mandelbrot (img : Image) (ratio : ℚ) (task_num task_size : ℕ)
    (pixelOf : ℚ → ℚ → List ℤ) : Image × ℕ :=
  let w := img.width
  let h := img.height
  let channels := img.channels
  (task_cols w task_size task_num).foldl
    (fun st i =>
      (List.range h).foldl (fun st2 j => mandelbrot_body w h channels ratio pixelOf st2 i j) st)
    (img, 0)

/-- One task dispatch of main's fractal loop (lines 208-211): run task t on
the shared image, record its local count pixels_inside_local[t]. -/
def mandelbrot_stage_step (ratio : ℚ) (T : ℕ) (pixelOf : ℚ → ℚ → List ℤ)
    (st : Image × List ℕ) (t : ℕ) : Image × List ℕ :=
  let r := mandelbrot st.1 ratio t T pixelOf
  (r.1, st.2 ++ [r.2])

/-- The stage dispatch in main (lines 202-213): run every task over the shared
image, collecting the per-task local counts pixels_inside_local. -/
def mandelbrot_stage (img : Image) (ratio : ℚ) (T : ℕ)
    (pixelOf : ℚ → ℚ → List ℤ) : Image × List ℕ :=
  (List.range T).foldl (mandelbrot_stage_step ratio T pixelOf) (img, [])

/-- The accumulate at line 214: total inside count = sum of the locals. -/
def pixels_inside (img : Image) (ratio : ℚ) (T : ℕ)
    (pixelOf : ℚ → ℚ → List ℤ) : ℕ :=
  (mandelbrot_stage img ratio T pixelOf).2.sum

/-- The number of pixels of task t's slice for which the kernel returns true. -/
def task_count (w h : ℕ) (ratio : ℚ) (t T : ℕ) : ℕ :=
  ((task_cols w T t).map (fun i =>
    ((List.range h).filter (fun j =>
      kernel_flag (cOf w h ratio i j).1 (cOf w h ratio i j).2)).length)).sum

/-- Modelled from the spec: a point is a set member exactly when the iteration
budget is exhausted without escape. -/
def insideSetSpec (cr ci : ℚ) : Bool := decide (kernel_iters cr ci = max_iterations)

/-! ## The convolution kernel and stage (lines 109-176)

The weight matrix comes from get_2d_kernel (a2-helpers.hpp, outside src/);
since the claims quantify over arbitrary kernel matrices it is passed as an
explicit parameter.  `displ = kernel.size() / 2` (line 120). -/

/-- One neighborhood term (lines 130-146): the offsets (k, l) run over
[-displ, displ]; cy = i + k, cx = j + l; an out-of-range neighbor is skipped
(`continue`), i.e. contributes 0, otherwise the term is
kernel[k+displ][l+displ] * src(ch, cy, cx). -/
def contrib (src : Image) (kernel : List (List ℚ)) (displ : ℕ)
    (ch i j : ℕ) (k l : ℤ) : ℚ :=
  if (j : ℤ) + l < 0 ∨ (j : ℤ) + l > (src.width : ℤ) - 1 ∨
      (i : ℤ) + k < 0 ∨ (i : ℤ) + k > (src.height : ℤ) - 1 then 0
  else ((kernel.getD (k + displ).toNat []).getD (l + displ).toNat 0) *
    ((src.get ch ((i : ℤ) + k).toNat ((j : ℤ) + l).toNat : ℤ) : ℚ)

/-- The offsets -displ, ..., displ visited by `for (k = -displ; k <= displ; k++)`. -/
def offsets (displ : ℕ) : List ℤ :=
  (List.range (2 * displ + 1)).map (fun d => (d : ℤ) - (displ : ℤ))

/-- The accumulated neighborhood value `val` for one target pixel/channel
(lines 128-147): the double loop over the offsets, summing the contributions. -/
def conv_val (src : Image) (kernel : List (List ℚ)) (ch i j : ℕ) : ℚ :=
  let displ := kernel.length / 2
  ((offsets displ).map (fun k =>
    ((offsets displ).map (fun l => contrib src kernel displ ch i j k l)).sum)).sum

/-- The stored value (line 148):
`(int)(val > 255 ? 255 : (val < 0 ? 0 : val))`; in the final branch
0 ≤ val ≤ 255, where the int cast (truncation toward zero) equals the floor. -/
def clamp_store (val : ℚ) : ℤ :=
  if val > 255 then 255 else if val < 0 then 0 else ⌊val⌋

/-- The channel/row loops of convolution_2d_helper for one column j
(lines 124-149): dst(ch, i, j) = clamp_store(conv_val src ch i j). -/
def helper_inner (src : Image) (kernel : List (List ℚ)) (j : ℕ) (d : Image) : Image :=
  (List.range src.channels).foldl
    (fun d1 ch =>
      (List.range src.height).foldl
        (fun d2 i => d2.set ch i j (clamp_store (conv_val src kernel ch i j))) d1)
    d

/-- One convolution task (convolution_2d_helper, lines 109-152): the column
slice of task task_num out of task_size, with w, h, channels read from src
(lines 111-113).  The unused nsteps/h_size parameters are dropped. -/
def convolution_2d_helper (src dst : Image) (kernel : List (List ℚ))
    (task_num task_size : ℕ) : Image :=
  (task_cols src.width task_size task_num).foldl
    (fun d j => helper_inner src kernel j d) dst

/-- The fixed task count of the convolution stage (line 156). -/
def conv_task_size : ℕ := 256

/-- One full pass of the stage (lines 159-169): all 256 tasks write their
disjoint column slices of dst, all reading the same src. -/
def conv_pass (src dst : Image) (kernel : List (List ℚ)) : Image :=
  (List.range conv_task_size).foldl
    (fun d t => convolution_2d_helper src d kernel t conv_task_size) dst

/-- The multi-pass driver (convolution_2d, lines 154-176): run a pass; while
more passes remain, swap the contents of the two buffers
(`Image tmp = src; src = dst; dst = tmp;`) and continue.  Returns the final
contents of the caller's (src, dst) pair. -/
def convolution_2d (src dst : Image) (kernel : List (List ℚ)) : ℕ → Image × Image
  | 0 => (src, dst)
  | 1 => (src, conv_pass src dst kernel)
  | n + 2 => convolution_2d (conv_pass src dst kernel) src kernel (n + 1)

/-- Modelled from the spec: the single-pass convolution applied repeatedly
with source and destination buffers alternated between passes; the state is
(buffer the last pass wrote, the other buffer), each pass reading the first
and overwriting the second.  The final result is the first component. -/
def conv_spec_iter (kernel : List (List ℚ)) : ℕ → Image × Image → Image × Image
  | 0, st => st
  | n + 1, st => conv_spec_iter kernel n (conv_pass st.1 st.2 kernel, st.1)

/-! ## Concrete kernel evaluations -/

/-- The loop stops at n exactly when every earlier iterate was within the
radius and the n-th iterate escaped (or the budget ran out). -/
theorem kernel_iters_eq (cr ci : ℚ) (n : ℕ) (hn : n ≤ max_iterations)
    (hesc : n < max_iterations → ¬ normSq (miter cr ci n) ≤ 16)
    (hprev : ∀ m, m < n → normSq (miter cr ci m) ≤ 16) :
    kernel_iters cr ci = n := by
  obtain ⟨h1, h2, h3, h4⟩ := kernel_inv cr ci
  by_contra hne
  rcases Nat.lt_or_ge (kernel_iters cr ci) n with hlt | hge
  · exact (h4 (by omega)) (hprev _ hlt)
  · exact (hesc (by omega)) (h3 n (by omega))

/-- At c = 3 the loop runs twice: z goes 0 → 3 → 12, and only |12| > 4
stops it (|3| > 2 does not). -/
theorem kernel_iters_at_three : kernel_iters 3 0 = 2 := by
  apply kernel_iters_eq
  · norm_num [max_iterations]
  · intro _
    norm_num [miter, mstep, normSq]
  · intro m hm
    interval_cases m <;> norm_num [miter, mstep, normSq]

theorem kernel_flag_at_three : kernel_flag 3 0 = true := by
  unfold kernel_flag
  rw [kernel_iters_at_three]
  rfl

/-- At c = 0 every iterate is 0. -/
theorem miter_at_zero : ∀ n, miter 0 0 n = (0, 0) := by
  intro n
  induction n with
  | zero => rfl
  | succ n ih => rw [miter_succ, ih]; norm_num [mstep]

/-- At c = 0 the loop exhausts the whole budget. -/
theorem kernel_iters_at_zero : kernel_iters 0 0 = max_iterations := by
  apply kernel_iters_eq
  · exact le_refl _
  · intro h
    exact absurd h (by omega)
  · intro m hm
    rw [miter_at_zero]
    norm_num [normSq]

theorem kernel_flag_at_zero : kernel_flag 0 0 = false := by
  unfold kernel_flag
  rw [kernel_iters_at_zero]
  rfl

/-- The 1x1 image maps its only pixel to c = (-1.10, -0.35). -/
theorem cOf_unit : cOf 1 1 (3 / 2) 0 0 = (-11 / 10, -7 / 20) := by
  norm_num [cOf]

/-- The point (-1.10, -0.35) escapes at iteration 9. -/
theorem kernel_iters_at_corner : kernel_iters (-11 / 10) (-7 / 20) = 9 := by
  apply kernel_iters_eq
  · norm_num [max_iterations]
  · intro _
    norm_num [miter, mstep, normSq]
  · intro m hm
    interval_cases m <;> norm_num [miter, mstep, normSq]

theorem kernel_flag_at_corner : kernel_flag (-11 / 10) (-7 / 20) = true := by
  unfold kernel_flag
  rw [kernel_iters_at_corner]
  rfl

/-! ## Counting lemmas for the fractal stage -/

/-- Folding a step that adds g a to the counter sums the g-values. -/
theorem foldl_snd_add {α β : Type} (F : β × ℕ → α → β × ℕ) (g : α → ℕ)
    (hF : ∀ st a, (F st a).2 = st.2 + g a) :
    ∀ (l : List α) (st : β × ℕ), (l.foldl F st).2 = st.2 + (l.map g).sum := by
  intro l
  induction l with
  | nil => intro st; simp
  | cons a l ih =>
      intro st
      rw [List.foldl_cons, ih, hF]
      simp [Nat.add_assoc]

/-- Counting by an if-accumulator equals the filtered length. -/
theorem sum_map_ite_eq_length_filter {α : Type} (p : α → Bool) :
    ∀ l : List α, (l.map (fun a => if p a then 1 else 0)).sum = (l.filter p).length := by
  intro l
  induction l with
  | nil => rfl
  | cons a l ih => by_cases h : p a <;> simp [h, ih, Nat.add_comm]

theorem mandelbrot_body_snd (w h channels : ℕ) (ratio : ℚ)
    (pixelOf : ℚ → ℚ → List ℤ) (st : Image × ℕ) (i j : ℕ) :
    (mandelbrot_body w h channels ratio pixelOf st i j).2 =
      st.2 + (if kernel_flag (cOf w h ratio i j).1 (cOf w h ratio i j).2 then 1 else 0) := by
  unfold mandelbrot_body
  by_cases hf : kernel_flag (cOf w h ratio i j).1 (cOf w h ratio i j).2 <;> simp [hf]

/-- One task's local counter equals the number of kernel-true pixels of its
column slice. -/
theorem mandelbrot_snd (img : Image) (ratio : ℚ) (t T : ℕ)
    (pixelOf : ℚ → ℚ → List ℤ) :
    (mandelbrot img ratio t T pixelOf).2 = task_count img.width img.height ratio t T := by
  unfold mandelbrot task_count
  rw [foldl_snd_add _
    (fun i => ((List.range img.height).filter (fun j =>
      kernel_flag (cOf img.width img.height ratio i j).1
        (cOf img.width img.height ratio i j).2)).length)]
  · simp
  · intro st i
    rw [foldl_snd_add _
      (fun j => if kernel_flag (cOf img.width img.height ratio i j).1
        (cOf img.width img.height ratio i j).2 then 1 else 0)]
    · rw [sum_map_ite_eq_length_filter]
    · intro st2 j
      exact mandelbrot_body_snd _ _ _ _ _ _ _ _

/-- A fold whose step preserves an image dimension preserves it overall. -/
theorem foldl_dim {α : Type} (f : Image → ℕ) (F : Image → α → Image)
    (hF : ∀ im a, f (F im a) = f im) :
    ∀ (l : List α) (im : Image), f (l.foldl F im) = f im := by
  intro l
  induction l with
  | nil => intro im; rfl
  | cons a l ih => intro im; rw [List.foldl_cons, ih, hF]

/-- Same, for folds carrying extra state beside the image. -/
theorem foldl_fst_dim {α β : Type} (f : Image → ℕ) (F : Image × β → α → Image × β)
    (hF : ∀ st a, f (F st a).1 = f st.1) :
    ∀ (l : List α) (st : Image × β), f ((l.foldl F st).1) = f st.1 := by
  intro l
  induction l with
  | nil => intro st; rfl
  | cons a l ih => intro st; rw [List.foldl_cons, ih, hF]

/-- A fractal task never changes the image dimensions. -/
theorem mandelbrot_dim (f : Image → ℕ)
    (hset : ∀ (im : Image) (ch r c : ℕ) (v : ℤ), f (im.set ch r c v) = f im)
    (img : Image) (ratio : ℚ) (t T : ℕ) (pixelOf : ℚ → ℚ → List ℤ) :
    f (mandelbrot img ratio t T pixelOf).1 = f img := by
  unfold mandelbrot
  exact foldl_fst_dim f _
    (fun st i => foldl_fst_dim f _
      (fun st2 j => foldl_dim f _ (fun im ch => hset im ch j i _) _ _) _ _) _ _

/-- The list of local counts collected by the stage dispatch. -/
theorem mandelbrot_stage_locals_aux (ratio : ℚ) (T : ℕ) (pixelOf : ℚ → ℚ → List ℤ)
    (w h : ℕ) :
    ∀ (n : ℕ) (im : Image) (acc : List ℕ), im.width = w → im.height = h →
      ((List.range n).foldl (mandelbrot_stage_step ratio T pixelOf) (im, acc)).2 =
        acc ++ (List.range n).map (fun t => task_count w h ratio t T) := by
  intro n
  induction n with
  | zero => intro im acc hw hh; simp
  | succ n ih =>
      intro im acc hw hh
      have hpw : ∀ (st : Image × List ℕ) (t : ℕ),
          ((mandelbrot_stage_step ratio T pixelOf st t).1).width = st.1.width := by
        intro st t
        exact mandelbrot_dim (fun x => x.width) (fun _ _ _ _ _ => rfl) _ _ _ _ _
      have hph : ∀ (st : Image × List ℕ) (t : ℕ),
          ((mandelbrot_stage_step ratio T pixelOf st t).1).height = st.1.height := by
        intro st t
        exact mandelbrot_dim (fun x => x.height) (fun _ _ _ _ _ => rfl) _ _ _ _ _
      have hw2 : (((List.range n).foldl (mandelbrot_stage_step ratio T pixelOf) (im, acc)).1).width = w :=
        (foldl_fst_dim _ _ hpw (List.range n) (im, acc)).trans hw
      have hh2 : (((List.range n).foldl (mandelbrot_stage_step ratio T pixelOf) (im, acc)).1).height = h :=
        (foldl_fst_dim _ _ hph (List.range n) (im, acc)).trans hh
      rw [List.range_succ, List.foldl_append, List.foldl_cons, List.foldl_nil]
      simp only [mandelbrot_stage_step]
      rw [mandelbrot_snd, hw2, hh2, ih im acc hw hh]
      simp

theorem mandelbrot_stage_locals (img : Image) (ratio : ℚ) (T : ℕ)
    (pixelOf : ℚ → ℚ → List ℤ) :
    (mandelbrot_stage img ratio T pixelOf).2 =
      (List.range T).map (fun t => task_count img.width img.height ratio t T) := by
  unfold mandelbrot_stage
  rw [mandelbrot_stage_locals_aux ratio T pixelOf img.width img.height T img [] rfl rfl]
  rfl

/-! ## Pointwise characterization of the convolution writes -/

/-- The row loop for a fixed channel and column writes exactly the samples
(ch, i, j) with i below the loop bound. -/
theorem foldl_set_col_get (f : ℕ → ℤ) (ch j : ℕ) :
    ∀ (n : ℕ) (d : Image) (ch0 i0 j0 : ℕ),
      ((List.range n).foldl (fun d2 i => d2.set ch i j (f i)) d).get ch0 i0 j0 =
        if ch0 = ch ∧ i0 < n ∧ j0 = j then f i0 else d.get ch0 i0 j0 := by
  intro n
  induction n with
  | zero =>
      intro d ch0 i0 j0
      simp
  | succ n ih =>
      intro d ch0 i0 j0
      simp only [List.range_succ, List.foldl_append, List.foldl_cons, List.foldl_nil,
        Image.get_set]
      rw [ih]
      by_cases h1 : ch0 = ch ∧ i0 = n ∧ j0 = j
      · obtain ⟨e1, e2, e3⟩ := h1
        subst e1; subst e2; subst e3
        simp
      · rw [if_neg h1]
        by_cases h2 : ch0 = ch ∧ i0 < n ∧ j0 = j
        · rw [if_pos h2, if_pos ⟨h2.1, by omega, h2.2.2⟩]
        · rw [if_neg h2, if_neg ?_]
          intro hc
          have hn : ¬ i0 < n := fun hlt => h2 ⟨hc.1, hlt, hc.2.2⟩
          exact h1 ⟨hc.1, by omega, hc.2.2⟩

/-- The channel/row double loop of one column writes exactly the samples of
that column with channel and row in range, storing the clamped value. -/
theorem helper_inner_fold_get (src : Image) (kernel : List (List ℚ)) (j m : ℕ) :
    ∀ (n : ℕ) (d : Image) (ch0 i0 j0 : ℕ),
      ((List.range n).foldl
          (fun d1 ch => (List.range m).foldl
            (fun d2 i => d2.set ch i j (clamp_store (conv_val src kernel ch i j))) d1) d).get ch0 i0 j0 =
        if ch0 < n ∧ i0 < m ∧ j0 = j
        then clamp_store (conv_val src kernel ch0 i0 j) else d.get ch0 i0 j0 := by
  intro n
  induction n with
  | zero =>
      intro d ch0 i0 j0
      simp
  | succ n ih =>
      intro d ch0 i0 j0
      simp only [List.range_succ, List.foldl_append, List.foldl_cons, List.foldl_nil]
      rw [foldl_set_col_get, ih]
      by_cases h1 : ch0 = n ∧ i0 < m ∧ j0 = j
      · obtain ⟨e1, hB, e3⟩ := h1
        subst e1; subst e3
        simp [hB]
      · rw [if_neg h1]
        by_cases h2 : ch0 < n ∧ i0 < m ∧ j0 = j
        · rw [if_pos h2, if_pos ⟨by omega, h2.2⟩]
        · rw [if_neg h2, if_neg ?_]
          intro hc
          have hn : ¬ ch0 < n := fun hlt => h2 ⟨hlt, hc.2⟩
          exact h1 ⟨by omega, hc.2⟩

/-- helper_inner writes exactly the in-range samples of its column. -/
theorem helper_inner_get (src : Image) (kernel : List (List ℚ)) (j : ℕ)
    (d : Image) (ch0 i0 j0 : ℕ) :
    (helper_inner src kernel j d).get ch0 i0 j0 =
      if ch0 < src.channels ∧ i0 < src.height ∧ j0 = j
      then clamp_store (conv_val src kernel ch0 i0 j) else d.get ch0 i0 j0 :=
  helper_inner_fold_get src kernel j src.height src.channels d ch0 i0 j0

/-- The column loop over a contiguous base-offset slice writes exactly the
columns of the slice. -/
theorem helper_cols_get (src : Image) (kernel : List (List ℚ)) (b : ℕ) :
    ∀ (n : ℕ) (d : Image) (ch0 i0 j0 : ℕ),
      ((List.range n).foldl (fun d jj => helper_inner src kernel (b + jj) d) d).get ch0 i0 j0 =
        if ch0 < src.channels ∧ i0 < src.height ∧ b ≤ j0 ∧ j0 < b + n
        then clamp_store (conv_val src kernel ch0 i0 j0) else d.get ch0 i0 j0 := by
  intro n
  induction n with
  | zero =>
      intro d ch0 i0 j0
      simp only [List.range_zero, List.foldl_nil]
      rw [if_neg (by omega)]
  | succ n ih =>
      intro d ch0 i0 j0
      simp only [List.range_succ, List.foldl_append, List.foldl_cons, List.foldl_nil]
      rw [helper_inner_get, ih]
      by_cases h1 : ch0 < src.channels ∧ i0 < src.height ∧ j0 = b + n
      · obtain ⟨hA, hB, e3⟩ := h1
        subst e3
        rw [if_pos ⟨hA, hB, rfl⟩, if_pos ⟨hA, hB, by omega, by omega⟩]
      · rw [if_neg h1]
        by_cases h2 : ch0 < src.channels ∧ i0 < src.height ∧ b ≤ j0 ∧ j0 < b + n
        · rw [if_pos h2, if_pos ⟨h2.1, h2.2.1, h2.2.2.1, by omega⟩]
        · rw [if_neg h2, if_neg ?_]
          intro hc
          have hn : ¬ j0 < b + n := fun hlt => h2 ⟨hc.1, hc.2.1, hc.2.2.1, hlt⟩
          exact h1 ⟨hc.1, hc.2.1, by omega⟩

/-- One convolution task writes exactly its column slice
[t·(w/T), (t+1)·(w/T)) at in-range channels and rows, storing the clamped
neighborhood value; every other sample of dst is untouched. -/
theorem helper_get (src dst : Image) (kernel : List (List ℚ)) (t T ch0 i0 j0 : ℕ) :
    (convolution_2d_helper src dst kernel t T).get ch0 i0 j0 =
      if ch0 < src.channels ∧ i0 < src.height ∧
          t * (src.width / T) ≤ j0 ∧ j0 < (t + 1) * (src.width / T)
      then clamp_store (conv_val src kernel ch0 i0 j0) else dst.get ch0 i0 j0 := by
  unfold convolution_2d_helper task_cols
  rw [List.foldl_map, helper_cols_get src kernel (t * (src.width / T)) (src.width / T)]
  rw [Nat.succ_mul]

/-- A prefix of the pass's task loop writes exactly the columns
[0, n·(w/T)). -/
theorem pass_fold_get (src : Image) (kernel : List (List ℚ)) (T : ℕ) :
    ∀ (n : ℕ) (d : Image) (ch0 i0 j0 : ℕ),
      ((List.range n).foldl (fun d t => convolution_2d_helper src d kernel t T) d).get ch0 i0 j0 =
        if ch0 < src.channels ∧ i0 < src.height ∧ j0 < n * (src.width / T)
        then clamp_store (conv_val src kernel ch0 i0 j0) else d.get ch0 i0 j0 := by
  intro n
  induction n with
  | zero =>
      intro d ch0 i0 j0
      simp only [List.range_zero, List.foldl_nil]
      rw [if_neg (by omega)]
  | succ n ih =>
      intro d ch0 i0 j0
      simp only [List.range_succ, List.foldl_append, List.foldl_cons, List.foldl_nil]
      rw [helper_get, ih, Nat.succ_mul]
      generalize src.width / T = q
      by_cases h1 : ch0 < src.channels ∧ i0 < src.height ∧ n * q ≤ j0 ∧ j0 < n * q + q
      · rw [if_pos h1, if_pos ⟨h1.1, h1.2.1, by omega⟩]
      · rw [if_neg h1]
        by_cases h2 : ch0 < src.channels ∧ i0 < src.height ∧ j0 < n * q
        · rw [if_pos h2, if_pos ⟨h2.1, h2.2.1, by omega⟩]
        · rw [if_neg h2, if_neg ?_]
          intro hc
          have ha : ¬ j0 < n * q := fun hlt => h2 ⟨hc.1, hc.2.1, hlt⟩
          exact h1 ⟨hc.1, hc.2.1, by omega, by omega⟩

/-- One full pass writes exactly the columns covered by the 256 tasks. -/
theorem conv_pass_get (src dst : Image) (kernel : List (List ℚ)) (ch0 i0 j0 : ℕ) :
    (conv_pass src dst kernel).get ch0 i0 j0 =
      if ch0 < src.channels ∧ i0 < src.height ∧
          j0 < conv_task_size * (src.width / conv_task_size)
      then clamp_store (conv_val src kernel ch0 i0 j0) else dst.get ch0 i0 j0 := by
  unfold conv_pass
  rw [pass_fold_get]

/-! ## Clamp bounds and the multi-pass driver -/

theorem clamp_store_nonneg (val : ℚ) : 0 ≤ clamp_store val := by
  unfold clamp_store
  split_ifs with h1 h2
  · norm_num
  · norm_num
  · exact Int.le_floor.mpr (by exact_mod_cast not_lt.mp h2)

theorem clamp_store_le (val : ℚ) : clamp_store val ≤ 255 := by
  unfold clamp_store
  split_ifs with h1 h2
  · norm_num
  · norm_num
  · have h3 : (⌊val⌋ : ℚ) ≤ val := Int.floor_le val
    have h4 : val ≤ 255 := not_lt.mp h1
    exact_mod_cast h3.trans h4

/-- The driver with n+1 steps computes exactly the alternating-buffer
iteration, with the caller's (src, dst) pair holding the swapped spec state:
dst holds the last pass's output, src the other buffer. -/
theorem conv_loop_swap (kernel : List (List ℚ)) :
    ∀ (n : ℕ) (src dst : Image),
      convolution_2d src dst kernel (n + 1) =
        Prod.swap (conv_spec_iter kernel (n + 1) (src, dst)) := by
  intro n
  induction n with
  | zero => intro src dst; rfl
  | succ n ih =>
      intro src dst
      show convolution_2d (conv_pass src dst kernel) src kernel (n + 1) = _
      rw [ih]
      rfl

/-! ## The claims -/

/-- Claim C1 (amended): the escape kernel, for every input c, iterates
z ← z² + c from z = 0 and stops exactly when |z| > 4 (|z|² > 16 — the code
compares |z| against 4, not against 2) or when the budget of 2048 iterations
is exhausted; the kernel's returned flag is true exactly when the loop
stopped before exhausting the budget (escape), not when the budget was
exhausted without escape. -/
theorem claim_C1_amended (cr ci : ℚ) :
    kernel_iters cr ci ≤ max_iterations ∧
    (∀ m, m < kernel_iters cr ci → normSq (miter cr ci m) ≤ 16) ∧
    (kernel_iters cr ci < max_iterations →
      16 < normSq (miter cr ci (kernel_iters cr ci))) ∧
    (mandelbrot_kernel cr ci).1 = miter cr ci (kernel_iters cr ci) ∧
    (kernel_flag cr ci = true ↔ kernel_iters cr ci < max_iterations) := by
  obtain ⟨h1, h2, h3, h4⟩ := kernel_inv cr ci
  exact ⟨h2, h3, fun h => not_le.mp (h4 h), h1, by simp [kernel_flag]⟩

/-- Claim C1 counterexample at c = 3: after one iteration z = 3 with
|z|² = 9 > 4, so a kernel stopping at |z| > 2 would stop there, yet the code
iterates once more (its loop runs while |z| ≤ 4) and stops at iteration 2;
moreover the kernel returns true although the budget was not exhausted, so
the returned flag is not "membership = budget exhausted without escape". -/
theorem claim_C1_counterexample :
    4 < normSq (miter 3 0 1) ∧ kernel_iters 3 0 = 2 ∧
    kernel_flag 3 0 = true ∧ kernel_iters 3 0 ≠ max_iterations := by
  refine ⟨by norm_num [miter, mstep, normSq], kernel_iters_at_three,
    kernel_flag_at_three, ?_⟩
  rw [kernel_iters_at_three]
  norm_num [max_iterations]

theorem claim_C1_witness :
    normSq (miter 3 0 1) ≤ 16 ∧ 16 < normSq (miter 3 0 (kernel_iters 3 0)) := by
  constructor
  · exact (claim_C1_amended 3 0).2.1 1 (by rw [kernel_iters_at_three]; omega)
  · exact (claim_C1_amended 3 0).2.2.1 (by rw [kernel_iters_at_three]; decide)

/-- Claim C3 (amended): for c = 0 every iterate is 0, the budget of 2048 is
exhausted without escape, and the kernel returns false — its flag reports
escape, so the non-escaping point c = 0 yields false, not true. -/
theorem claim_C3_amended :
    (∀ n, miter 0 0 n = (0, 0)) ∧
    kernel_iters 0 0 = max_iterations ∧
    kernel_flag 0 0 = false :=
  ⟨miter_at_zero, kernel_iters_at_zero, kernel_flag_at_zero⟩

/-- Claim C3 counterexample: at c = 0 the budget is exhausted without escape
as claimed, but the kernel's returned flag is false (the code returns
iteration < max_iterations), not true as the claim states. -/
theorem claim_C3_counterexample :
    kernel_flag 0 0 = false ∧ kernel_iters 0 0 = max_iterations :=
  ⟨kernel_flag_at_zero, kernel_iters_at_zero⟩

/-- Claim C4: the multi-pass driver with nsteps = k ≥ 1 equals k applications
of the single-pass function with the two buffers alternated (each pass reads
the previous pass's output and overwrites the other buffer); the driver's
final (src, dst) pair is the swap of the alternation state, so dst — the
destination of the last pass, which is never followed by a swap — holds the
final result conv_spec_iter's first component. -/
theorem claim_C4 (src dst : Image) (kernel : List (List ℚ)) (k : ℕ) (hk : 1 ≤ k) :
    convolution_2d src dst kernel k = Prod.swap (conv_spec_iter kernel k (src, dst)) := by
  obtain ⟨n, rfl⟩ : ∃ n, k = n + 1 := ⟨k - 1, by omega⟩
  exact conv_loop_swap kernel n src dst

def imgA : Image := ⟨1, 1, 1, fun _ _ _ => 1⟩

def imgB : Image := ⟨1, 1, 1, fun _ _ _ => 2⟩

theorem claim_C4_witness :
    convolution_2d imgA imgB [[1]] 1 = Prod.swap (conv_spec_iter [[1]] 1 (imgA, imgB)) :=
  claim_C4 imgA imgB [[1]] 1 (by decide)

/-- Claim C2 (amended): each fractal task's local count accumulates the number
of pixels of its column slice for which the kernel's returned flag is true
(escaped pixels — not inside-set pixels), and the stage's total count is the
sum of all tasks' local counts. -/
theorem claim_C2_amended (img : Image) (ratio : ℚ) (T : ℕ)
    (pixelOf : ℚ → ℚ → List ℤ) :
    (∀ t, (mandelbrot img ratio t T pixelOf).2 =
        task_count img.width img.height ratio t T) ∧
    (mandelbrot_stage img ratio T pixelOf).2 =
      (List.range T).map (fun t => task_count img.width img.height ratio t T) ∧
    pixels_inside img ratio T pixelOf =
      ((List.range T).map (fun t => task_count img.width img.height ratio t T)).sum := by
  refine ⟨fun t => mandelbrot_snd img ratio t T pixelOf,
    mandelbrot_stage_locals img ratio T pixelOf, ?_⟩
  unfold pixels_inside
  rw [mandelbrot_stage_locals]

def img1 : Image := ⟨1, 1, 1, fun _ _ _ => 0⟩

def pix0 : ℚ → ℚ → List ℤ := fun _ _ => [0, 0, 0]

/-- Claim C2 counterexample: on a 1×1 image the only pixel maps to
c = (-1.10, -0.35), which escapes at iteration 9 and so is not an inside-set
point — yet the single task's local count is 1: the counter tallies
kernel-true (escaped) pixels, not set-member pixels. -/
theorem claim_C2_counterexample :
    (mandelbrot img1 (3 / 2) 0 1 pix0).2 = 1 ∧
    insideSetSpec (cOf 1 1 (3 / 2) 0 0).1 (cOf 1 1 (3 / 2) 0 0).2 = false := by
  constructor
  · rw [mandelbrot_snd]
    have hcols : task_cols img1.width 1 0 = [0] := rfl
    have hflag : kernel_flag (cOf 1 1 (3 / 2) 0 0).1 (cOf 1 1 (3 / 2) 0 0).2 = true := by
      rw [cOf_unit]
      exact kernel_flag_at_corner
    unfold task_count
    rw [hcols]
    show ([((List.range 1).filter (fun j =>
      kernel_flag (cOf 1 1 (3 / 2) 0 j).1 (cOf 1 1 (3 / 2) 0 j).2)).length]).sum = 1
    rw [show List.range 1 = [0] from rfl]
    simp [hflag]
  · have h : insideSetSpec (-11 / 10 : ℚ) (-7 / 20 : ℚ) = false := by
      unfold insideSetSpec
      rw [kernel_iters_at_corner]
      rfl
    rw [cOf_unit]
    exact h

/-- Claim C5 (amended): the stages perform no precondition validation and have
no rejection path: for any kernel matrix — including one with a non-odd side
length — and any images, the convolution stage dispatches its tasks and
writes every covered destination sample exactly as for valid inputs, rather
than failing fast with no writes. -/
theorem claim_C5_amended (src dst : Image) (kernel : List (List ℚ)) (ch i j : ℕ)
    (hch : ch < src.channels) (hi : i < src.height)
    (hj : j < conv_task_size * (src.width / conv_task_size)) :
    (convolution_2d src dst kernel 1).2.get ch i j =
      clamp_store (conv_val src kernel ch i j) := by
  show (conv_pass src dst kernel).get ch i j = _
  rw [conv_pass_get, if_pos ⟨hch, hi, hj⟩]

def src5 : Image := ⟨1, 1, 256, fun _ _ _ => 7⟩

def dst5 : Image := ⟨1, 1, 256, fun _ _ _ => 0⟩

/-- Claim C5 counterexample: invoking the convolution stage with kernel width
2 — an even width, a precondition violation the claim says is rejected at
stage entry with no writes — is not rejected: the stage dispatches its tasks
and writes the destination, changing sample (0,0,0) from 0 to 7.  (In C++
the even-width run also indexes the weight matrix out of range; the model
reads such entries as 0.) -/
theorem claim_C5_counterexample :
    ([[1, 1], [1, 1]] : List (List ℚ)).length % 2 = 0 ∧
    dst5.get 0 0 0 = 0 ∧
    (convolution_2d src5 dst5 [[1, 1], [1, 1]] 1).2.get 0 0 0 = 7 := by
  refine ⟨rfl, rfl, ?_⟩
  show (conv_pass src5 dst5 [[1, 1], [1, 1]]).get 0 0 0 = 7
  rw [conv_pass_get, if_pos (by decide)]
  have hval : conv_val src5 [[1, 1], [1, 1]] 0 0 0 = 7 := by
    show ((offsets 1).map (fun k =>
      ((offsets 1).map (fun l => contrib src5 [[1, 1], [1, 1]] 1 0 0 0 k l)).sum)).sum = 7
    rw [show offsets 1 = [-1, 0, 1] from rfl]
    norm_num [contrib, src5, Image.get, List.getD]
    rfl
  rw [hval]
  norm_num [clamp_store]

theorem claim_C5_witness :
    (convolution_2d src5 dst5 [[1, 1], [1, 1]] 1).2.get 0 0 0 =
      clamp_store (conv_val src5 [[1, 1], [1, 1]] 0 0 0) :=
  claim_C5_amended src5 dst5 [[1, 1], [1, 1]] 0 0 0 (by decide) (by decide) (by decide)

/-- Claim C6: task t of T over extent w covers exactly the index range
[t·(w/T), (t+1)·(w/T)); the ranges of distinct tasks are disjoint; and every
index in the trailing remainder [w - w % T, w) — indeed every index at or
beyond w - w % T — is covered by no task. -/
theorem claim_C6 (w T t t2 j : ℕ) (ht : t < T) (_ht2 : t2 < T) (hne : t ≠ t2) :
    (j ∈ task_cols w T t ↔ t * (w / T) ≤ j ∧ j < (t + 1) * (w / T)) ∧
    ¬ (j ∈ task_cols w T t ∧ j ∈ task_cols w T t2) ∧
    (w - w % T ≤ j → j ∉ task_cols w T t) := by
  refine ⟨mem_task_cols w T t j, ?_, ?_⟩
  · rintro ⟨h1, h2⟩
    rw [mem_task_cols] at h1 h2
    rcases Nat.lt_or_ge t t2 with hlt | hge
    · have hm : (t + 1) * (w / T) ≤ t2 * (w / T) := Nat.mul_le_mul_right _ (by omega)
      omega
    · have hm : (t2 + 1) * (w / T) ≤ t * (w / T) := Nat.mul_le_mul_right _ (by omega)
      omega
  · intro hj hmem
    rw [mem_task_cols] at hmem
    have h1 : (t + 1) * (w / T) ≤ T * (w / T) := Nat.mul_le_mul_right _ (by omega)
    have h2 : T * (w / T) + w % T = w := Nat.div_add_mod w T
    omega

theorem claim_C6_witness :
    (3 ∈ task_cols 10 4 1 ↔ 1 * (10 / 4) ≤ 3 ∧ 3 < (1 + 1) * (10 / 4)) ∧
    ¬ (3 ∈ task_cols 10 4 1 ∧ 3 ∈ task_cols 10 4 2) ∧
    (10 - 10 % 4 ≤ 3 → 3 ∉ task_cols 10 4 1) :=
  claim_C6 10 4 1 2 3 (by decide) (by decide) (by decide)

/-- Claim C7: in the convolution kernel's weighted neighborhood sum, for every
kernel matrix and source image, a neighbor coordinate outside
[0, width) × [0, height) contributes exactly zero (skipped by `continue`, with
no reflection, wrapping or edge clamping), and the accumulated value equals
the sum in which out-of-range neighbors are replaced by a literal zero term. -/
theorem claim_C7 (src : Image) (kernel : List (List ℚ)) (ch i j : ℕ) :
    (∀ (displ : ℕ) (k l : ℤ),
      ((j : ℤ) + l < 0 ∨ (src.width : ℤ) ≤ (j : ℤ) + l ∨
        (i : ℤ) + k < 0 ∨ (src.height : ℤ) ≤ (i : ℤ) + k) →
      contrib src kernel displ ch i j k l = 0) ∧
    conv_val src kernel ch i j =
      ((offsets (kernel.length / 2)).map (fun k =>
        ((offsets (kernel.length / 2)).map (fun l =>
          if 0 ≤ (j : ℤ) + l ∧ (j : ℤ) + l < (src.width : ℤ) ∧
              0 ≤ (i : ℤ) + k ∧ (i : ℤ) + k < (src.height : ℤ)
          then (kernel.getD (k + ((kernel.length / 2 : ℕ) : ℤ)).toNat []).getD
              (l + ((kernel.length / 2 : ℕ) : ℤ)).toNat 0 *
            ((src.get ch ((i : ℤ) + k).toNat ((j : ℤ) + l).toNat : ℤ) : ℚ)
          else 0)).sum)).sum := by
  constructor
  · intro displ k l hout
    unfold contrib
    rw [if_pos (by omega)]
  · unfold conv_val
    refine congrArg List.sum (List.map_congr_left ?_)
    intro k hk
    refine congrArg List.sum (List.map_congr_left ?_)
    intro l hl
    unfold contrib
    by_cases hout : (j : ℤ) + l < 0 ∨ (j : ℤ) + l > (src.width : ℤ) - 1 ∨
        (i : ℤ) + k < 0 ∨ (i : ℤ) + k > (src.height : ℤ) - 1
    · rw [if_pos hout, if_neg (by omega)]
    · rw [if_neg hout, if_pos (by omega)]

def src7 : Image := ⟨1, 1, 1, fun _ _ _ => 5⟩

theorem claim_C7_witness : contrib src7 [[1]] 0 0 0 0 (-1) 0 = 0 :=
  (claim_C7 src7 [[1]] 0 0 0).1 0 (-1) 0 (by decide)

/-- Claim C8: every value one convolution task stores into the destination is
the accumulated rational neighborhood sum clamped to [0, 255] and truncated
to an integer (line 148), so every written sample lies in [0, 255]. -/
theorem claim_C8 (src dst : Image) (kernel : List (List ℚ)) (t T ch i j : ℕ)
    (hch : ch < src.channels) (hi : i < src.height)
    (hj1 : t * (src.width / T) ≤ j) (hj2 : j < (t + 1) * (src.width / T)) :
    (convolution_2d_helper src dst kernel t T).get ch i j =
      clamp_store (conv_val src kernel ch i j) ∧
    0 ≤ (convolution_2d_helper src dst kernel t T).get ch i j ∧
    (convolution_2d_helper src dst kernel t T).get ch i j ≤ 255 := by
  have h := helper_get src dst kernel t T ch i j
  rw [if_pos ⟨hch, hi, hj1, hj2⟩] at h
  exact ⟨h, by rw [h]; exact clamp_store_nonneg _, by rw [h]; exact clamp_store_le _⟩

def src8 : Image := ⟨1, 1, 1, fun _ _ _ => 200⟩

def dst8 : Image := ⟨1, 1, 1, fun _ _ _ => 0⟩

theorem claim_C8_witness :
    (convolution_2d_helper src8 dst8 [[2]] 0 1).get 0 0 0 =
      clamp_store (conv_val src8 [[2]] 0 0 0) ∧
    0 ≤ (convolution_2d_helper src8 dst8 [[2]] 0 1).get 0 0 0 ∧
    (convolution_2d_helper src8 dst8 [[2]] 0 1).get 0 0 0 ≤ 255 :=
  claim_C8 src8 dst8 [[2]] 0 1 0 0 0 (by decide) (by decide) (by decide) (by decide)

/-- Claim C9: one convolution task with index t of T writes only destination
samples whose column lies in [t·(w/T), (t+1)·(w/T)): every sample at a column
outside that slice — any channel, any row — keeps its previous destination
value.  (The task reads src and never writes it: the embedded helper returns
only the new destination, with src passed through untouched.) -/
theorem claim_C9 (src dst : Image) (kernel : List (List ℚ)) (t T ch i j : ℕ)
    (hout : ¬ (t * (src.width / T) ≤ j ∧ j < (t + 1) * (src.width / T))) :
    (convolution_2d_helper src dst kernel t T).get ch i j = dst.get ch i j := by
  rw [helper_get, if_neg ?_]
  intro hc
  exact hout ⟨hc.2.2.1, hc.2.2.2⟩

def src9 : Image := ⟨1, 1, 4, fun _ _ _ => 3⟩

def dst9 : Image := ⟨1, 1, 4, fun _ _ _ => 9⟩

theorem claim_C9_witness :
    (convolution_2d_helper src9 dst9 [[1]] 0 2).get 0 0 3 = dst9.get 0 0 3 :=
  claim_C9 src9 dst9 [[1]] 0 2 0 0 3 (by decide)

/-- Claim C10: the fractal stage writes the per-pixel color by indexing the
fixed pixel buffer (initialised to the 3-entry {0,0,0} at line 67 and kept an
RGB triplet by colorize) at every channel index below image.channels
(lines 85-86); all such accesses are in bounds exactly when the image has at
most 3 channels. -/
theorem claim_C10 (channels : ℕ) (px : List ℤ)
    (hpx : px.length = initial_pixel.length) :
    (∀ ch, ch < channels → ch < px.length) ↔ channels ≤ 3 := by
  rw [hpx]
  show (∀ ch, ch < channels → ch < 3) ↔ channels ≤ 3
  constructor
  · intro h
    by_contra hc
    have := h 3 (by omega)
    omega
  · intro h ch hch
    omega

theorem claim_C10_witness :
    (∀ ch, ch < 3 → ch < ([4, 5, 6] : List ℤ).length) ↔ 3 ≤ 3 :=
  claim_C10 3 [4, 5, 6] (by decide)

end A2
